import Mathlib

/-!
Shallow embedding of the atomic-bloom repository (bloom.go: BloomFilter and
its backing atomicBitSet) and proofs of the frozen claims about it.

Modelling conventions:
- Go 64-bit machine words (int64 and uint64 values) are Nat with explicit
  reduction modulo 2 ^ 64 where Go arithmetic wraps; bit patterns of int64
  words are their unsigned reading, which is faithful for every bitwise
  operation the source performs.
- The atomic word array is a List Nat; all operations in the source are
  sequential loops over it, translated to folds or recursion.
- Out-of-bounds slice indexing panics in Go.  The only places a panic is
  reachable (a bitset hydrated or deserialized with fewer words than its
  declared size needs) are totalized by reading 0 or by List.set being a
  no-op out of range; every theorem that relies on an index being in range
  carries the data-model invariant (WFbs) as a hypothesis instead.
- The murmur hash (Digest128.Sum256) is an external collaborator that is not
  part of this repository; key-level operations are parameterized by an
  arbitrary baseHashes function, so the theorems hold for every key under
  every hash implementation.
-/

namespace AtomicBloom

/-- Go uint64 modulus. -/
def U64 : Nat := 2 ^ 64

/-! ## atomicBitSet (bloom.go, second part of the source) -/

/-- Model of Go atomicBitSet: a slice of 64-bit words plus a bit size. -/
structure atomicBitSet where
  data : List Nat
  size : Nat
deriving DecidableEq

/-- Go newAtomicBitSet: (size + 63) / 64 zeroed words. -/
def newAtomicBitSet (size : Nat) : atomicBitSet :=
  ⟨List.replicate ((size + 63) / 64) 0, size⟩

/-- Go fromAtomicBitSet: starts from newAtomicBitSet size and stores the
supplied words at every index below the allocated word count. -/
def fromAtomicBitSet (data : List Nat) (size : Nat) : atomicBitSet :=
  ⟨(List.range ((size + 63) / 64)).map (fun i => data.getD i 0), size⟩

/-- Go atomicBitSet.Set: no-op for i at or beyond size, else atomically ORs
the mask into word i / 64.  (Go would panic when i / 64 is outside the word
slice of a malformed bitset; List.set is a no-op there.) -/
def atomicBitSet.Set (bs : atomicBitSet) (i : Nat) : atomicBitSet :=
  if bs.size ≤ i then bs
  else
    let index := i / 64
    let pos := i % 64
    let mask := 1 <<< pos
    { bs with data := bs.data.set index (bs.data.getD index 0 ||| mask) }

/-- Go atomicBitSet.Test: false for i at or beyond size, else loads word
i / 64 and checks the mask. -/
def atomicBitSet.Test (bs : atomicBitSet) (i : Nat) : Bool :=
  if bs.size ≤ i then false
  else
    let index := i / 64
    let pos := i % 64
    let mask := 1 <<< pos
    (bs.data.getD index 0 &&& mask) != 0

/-- Go atomicBitSet.ClearAll: stores zero into every word. -/
def atomicBitSet.ClearAll (bs : atomicBitSet) : atomicBitSet :=
  ⟨List.replicate bs.data.length 0, bs.size⟩

/-- Go atomicBitSet.Equal: equal sizes, equal word counts, equal words. -/
def atomicBitSet.Equal (bs other : atomicBitSet) : Bool :=
  bs.size == other.size && bs.data.length == other.data.length &&
    bs.data == other.data

/-- The per-word OR loop of Go atomicBitSet.InPlaceUnion: iterates over the
first list; a missing word of the second (where Go would panic on an index
out of range) is read as 0. -/
def orWords : List Nat → List Nat → List Nat
  | [], _ => []
  | w :: ws, [] => w :: orWords ws []
  | w :: ws, o :: os => (w ||| o) :: orWords ws os

/-- Go atomicBitSet.InPlaceUnion: ORs the words of the other bitset into
this one, index by index over this bitset's words. -/
def atomicBitSet.InPlaceUnion (bs other : atomicBitSet) : atomicBitSet :=
  ⟨orWords bs.data other.data, bs.size⟩

/-- Population count of one word (Go bits.OnesCount64). -/
def onesCount (n : Nat) : Nat :=
  if n = 0 then 0 else n % 2 + onesCount (n / 2)
decreasing_by exact Nat.div_lt_self (Nat.pos_of_ne_zero (by assumption)) (by omega)

/-- Go atomicBitSet.Count: sum of population counts over all words. -/
def atomicBitSet.Count (bs : atomicBitSet) : Nat :=
  (bs.data.map onesCount).sum

/-! ## The data-model invariant of an atomicBitSet

Every bitset the constructors build has exactly (size + 63) / 64 words;
only a malformed deserialization can break this (and then Go panics on
access, see the module comment). -/

/-- Word count matches the declared bit size. -/
def WFbs (bs : atomicBitSet) : Prop :=
  bs.data.length = (bs.size + 63) / 64

instance (bs : atomicBitSet) : Decidable (WFbs bs) := by
  unfold WFbs; infer_instance

/-! ## List helper lemmas -/

theorem getD_set_self (l : List Nat) (i : Nat) (v : Nat) (h : i < l.length) :
    (l.set i v).getD i 0 = v := by
  induction l generalizing i with
  | nil => simp at h
  | cons a t ih =>
    cases i with
    | zero => rfl
    | succ j => simpa using ih j (by simpa using h)

theorem getD_set_ne (l : List Nat) (i j : Nat) (v : Nat) (h : i ≠ j) :
    (l.set i v).getD j 0 = l.getD j 0 := by
  induction l generalizing i j with
  | nil => simp [List.set]
  | cons a t ih =>
    cases i with
    | zero =>
      cases j with
      | zero => exact absurd rfl h
      | succ j2 => rfl
    | succ i2 =>
      cases j with
      | zero => rfl
      | succ j2 => simpa using ih i2 j2 (by omega)

theorem set_getD_self (l : List Nat) (i : Nat) :
    l.set i (l.getD i 0) = l := by
  induction l generalizing i with
  | nil => rfl
  | cons a t ih =>
    cases i with
    | zero => rfl
    | succ j => simpa using ih j

theorem getD_eq_zero_of_le (l : List Nat) (i : Nat) (h : l.length ≤ i) :
    l.getD i 0 = 0 := by
  induction l generalizing i with
  | nil => simp [List.getD]
  | cons a t ih =>
    cases i with
    | zero => simp at h
    | succ j => simpa using ih j (by simpa using h)

/-! ## Word-bit lemmas -/

theorem word_mask_ne_zero (w p : Nat) :
    ((w &&& (1 <<< p)) != 0) = w.testBit p := by
  have hmask : (1 : Nat) <<< p = 2 ^ p := by
    simp [Nat.shiftLeft_eq]
  rw [hmask]
  cases htb : w.testBit p with
  | true =>
    have h1 : (w &&& 2 ^ p).testBit p = true := by
      simp [Nat.testBit_and, htb, Nat.testBit_two_pow_self]
    have : w &&& 2 ^ p ≠ 0 := by
      intro h0
      rw [h0] at h1
      simp [Nat.zero_testBit] at h1
    simpa [bne_iff_ne]
  | false =>
    have : w &&& 2 ^ p = 0 := by
      apply Nat.eq_of_testBit_eq
      intro q
      rcases eq_or_ne p q with rfl | hq
      · simp [Nat.testBit_and, htb]
      · simp [Nat.testBit_and, Nat.testBit_two_pow_of_ne hq]
    simp [this]

/-! ## Binary serialization of the bitset

Go binary.Write with binary.BigEndian emits each uint64 or int64 field as 8
big-endian bytes; binary.Read consumes 8 bytes or fails (the model returns
none where Go returns a read error).  A stream is a List Nat of bytes. -/

/-- Big-endian bytes of the low n * 8 bits of x. -/
def toBytesBE : Nat → Nat → List Nat
  | 0, _ => []
  | n + 1, x => toBytesBE n (x / 256) ++ [x % 256]

/-- The 8 big-endian bytes one binary.Write of a 64-bit field emits. -/
def be64 (x : Nat) : List Nat := toBytesBE 8 x

/-- One binary.Read of a 64-bit field: consumes 8 bytes or fails. -/
def readU64 : List Nat → Option (Nat × List Nat)
  | b0 :: b1 :: b2 :: b3 :: b4 :: b5 :: b6 :: b7 :: rest =>
      some (((((((b0 * 256 + b1) * 256 + b2) * 256 + b3) * 256 + b4) * 256
        + b5) * 256 + b6) * 256 + b7, rest)
  | _ => none

/-- The word-reading loop of Go atomicBitSet.ReadFrom: n words in order. -/
def readWords : Nat → List Nat → Option (List Nat × List Nat)
  | 0, s => some ([], s)
  | n + 1, s => do
      let (w, s1) ← readU64 s
      let (ws, s2) ← readWords n s1
      some (w :: ws, s2)

/-- Go atomicBitSet.WriteTo: size, word count, then every word, big-endian. -/
def atomicBitSet.WriteTo (bs : atomicBitSet) : List Nat :=
  be64 bs.size ++ be64 bs.data.length ++ (bs.data.map be64).flatten

/-- Go atomicBitSet.ReadFrom: reads size, the word count, then exactly that
many words; no consistency check between the two is performed. -/
def atomicBitSet.ReadFrom (s : List Nat) : Option (atomicBitSet × List Nat) := do
  let (size, s1) ← readU64 s
  let (dataLen, s2) ← readU64 s1
  let (ws, s3) ← readWords dataLen s2
  some (⟨ws, size⟩, s3)

/-! ## BloomFilter (bloom.go, first part of the source) -/

/-- Model of Go BloomFilter: bit count m, hash count k, backing bitset. -/
structure BloomFilter where
  m : Nat
  k : Nat
  b : atomicBitSet
deriving DecidableEq

/-- The max helper of bloom.go. -/
def gmax (x y : Nat) : Nat := if x > y then x else y

/-- Go New: clamps m and k to at least 1, allocates a zeroed bitset. -/
def New (m k : Nat) : BloomFilter :=
  ⟨gmax 1 m, gmax 1 k, newAtomicBitSet (gmax 1 m)⟩

/-- Go FromWithM: clamps only k; m is taken as given. -/
def FromWithM (data : List Nat) (m k : Nat) : BloomFilter :=
  ⟨m, gmax 1 k, fromAtomicBitSet data m⟩

/-- Go From: m is 64 times the number of supplied words. -/
def From (data : List Nat) (k : Nat) : BloomFilter :=
  FromWithM data (64 * data.length) k

/-- Go NewWithEstimates, with EstimateParameters (pure float math over the
target capacity and false-positive rate) abstracted as a parameter; whatever
pair it returns is passed to New. -/
def NewWithEstimates (estimateParameters : Nat → ℚ → Nat × Nat) (n : Nat)
    (fp : ℚ) : BloomFilter :=
  let mk := estimateParameters n fp
  New mk.1 mk.2

/-- Go BloomFilter.Cap. -/
def BloomFilter.Cap (f : BloomFilter) : Nat := f.m

/-- Go BloomFilter.K. -/
def BloomFilter.K (f : BloomFilter) : Nat := f.k

/-- A four-value base hash tuple (the [4]uint64 of bloom.go). -/
def HashTup : Type := Fin 4 → Nat

/-- Go free function location: the ith raw probe derived from the four base
hash values, in wrapping 64-bit unsigned arithmetic. -/
def location (h : HashTup) (i : Nat) : Nat :=
  (h ⟨i % 2, by omega⟩ + i * h ⟨2 + ((i + i % 2) % 4) / 2, by omega⟩) % U64

/-- Go method BloomFilter.location: the raw probe reduced modulo m. -/
def BloomFilter.location (f : BloomFilter) (h : HashTup) (i : Nat) : Nat :=
  AtomicBloom.location h i % f.m

/-- Go BloomFilter.AddHash: sets all k derived positions. -/
def BloomFilter.AddHash (f : BloomFilter) (h : HashTup) : BloomFilter :=
  { f with b := (List.range f.k).foldl (fun b i => b.Set (f.location h i)) f.b }

/-- Go BloomFilter.TestHash: true only when all k derived positions are set. -/
def BloomFilter.TestHash (f : BloomFilter) (h : HashTup) : Bool :=
  (List.range f.k).all (fun i => f.b.Test (f.location h i))

/-- One iteration of the Go BloomFilter.TestAndAdd loop: clears the present
flag when the bit tests unset, then sets the bit regardless. -/
def taaStep (acc : Bool × atomicBitSet) (l : Nat) : Bool × atomicBitSet :=
  ((if acc.2.Test l then acc.1 else false), acc.2.Set l)

/-- Go BloomFilter.TestAndAdd on a precomputed hash tuple: reports whether
every probe tested set, and sets every probe unconditionally. -/
def BloomFilter.TestAndAddHash (f : BloomFilter) (h : HashTup) :
    Bool × BloomFilter :=
  let r := (List.range f.k).foldl (fun acc i => taaStep acc (f.location h i))
    (true, f.b)
  (r.1, { f with b := r.2 })

/-- One iteration of the Go BloomFilter.TestOrAdd loop: sets the bit only
when it tested unset, clearing the present flag in that case. -/
def toaStep (acc : Bool × atomicBitSet) (l : Nat) : Bool × atomicBitSet :=
  if acc.2.Test l then acc else (false, acc.2.Set l)

/-- Go BloomFilter.TestOrAdd on a precomputed hash tuple. -/
def BloomFilter.TestOrAddHash (f : BloomFilter) (h : HashTup) :
    Bool × BloomFilter :=
  let r := (List.range f.k).foldl (fun acc i => toaStep acc (f.location h i))
    (true, f.b)
  (r.1, { f with b := r.2 })

/-- The error Go BloomFilter.Merge returns via fmt.Errorf, carrying the two
mismatching values it reports. -/
inductive MergeErr where
  | mMismatch (fm gm : Nat)
  | kMismatch (fk gk : Nat)
deriving DecidableEq

/-- Go BloomFilter.Merge: descriptive error and no mutation when m or k
differ, else ORs the other bit array into this one. -/
def BloomFilter.Merge (f g : BloomFilter) : Option MergeErr × BloomFilter :=
  if f.m ≠ g.m then (some (.mMismatch f.m g.m), f)
  else if f.k ≠ g.k then (some (.kMismatch f.k g.k), f)
  else (none, { f with b := f.b.InPlaceUnion g.b })

/-- Go BloomFilter.ClearAll. -/
def BloomFilter.ClearAll (f : BloomFilter) : BloomFilter :=
  { f with b := f.b.ClearAll }

/-- Go BloomFilter.Equal: m, k and the bitsets all match. -/
def BloomFilter.Equal (f g : BloomFilter) : Bool :=
  f.m == g.m && f.k == g.k && f.b.Equal g.b

/-- Go BloomFilter.WriteTo: m, k, then the bitset, big-endian. -/
def BloomFilter.WriteTo (f : BloomFilter) : List Nat :=
  be64 f.m ++ be64 f.k ++ f.b.WriteTo

/-- Go BloomFilter.ReadFrom: reads m, k, then the bitset. -/
def BloomFilter.ReadFrom (s : List Nat) : Option (BloomFilter × List Nat) := do
  let (m, s1) ← readU64 s
  let (k, s2) ← readU64 s1
  let (bs, s3) ← atomicBitSet.ReadFrom s2
  some (⟨m, k, bs⟩, s3)

/-- Truncation toward zero, the effect of a Go int64(...) conversion of a
finite float. -/
def ratTrunc (q : ℚ) : ℤ := if 0 ≤ q then ⌊q⌋ else ⌈q⌉

/-- Go BloomFilter.ApproximatedSize, with float64 arithmetic modelled as
exact rational arithmetic and math.Log abstracted as a parameter: with
m = Cap, k = K and x the set-bit count, returns 0 when m or k is 0, the
truncated m / k when the array is saturated (x = m with m, k positive), and
otherwise the truncated -(m / k) * log (1 - x / m). -/
def BloomFilter.ApproximatedSize (log : ℚ → ℚ) (f : BloomFilter) : ℤ :=
  let m : ℚ := (f.Cap : ℚ)
  let k : ℚ := (f.K : ℚ)
  let x : ℚ := (f.b.Count : ℚ)
  if m = 0 ∨ k = 0 ∨ m = x then
    if m = x ∧ 0 < m ∧ 0 < k then ratTrunc (m / k) else 0
  else
    ratTrunc (-m / k * log (1 - x / m))

/-! ## Key-level operations

Go Add, Test, TestAndAdd and TestOrAdd first feed the key to baseHashes
(the external murmur Digest128.Sum256, not part of this repository) and then
work on the resulting tuple; they are modelled parametric in that hash. -/

/-- Go BloomFilter.Add on a key, for a given baseHashes implementation. -/
def Add (hash : List Nat → HashTup) (f : BloomFilter) (key : List Nat) :
    BloomFilter :=
  f.AddHash (hash key)

/-- Go BloomFilter.Test on a key, for a given baseHashes implementation. -/
def Test (hash : List Nat → HashTup) (f : BloomFilter) (key : List Nat) :
    Bool :=
  f.TestHash (hash key)

/-- Go BloomFilter.TestAndAdd on a key. -/
def TestAndAdd (hash : List Nat → HashTup) (f : BloomFilter)
    (key : List Nat) : Bool × BloomFilter :=
  f.TestAndAddHash (hash key)

/-- Go BloomFilter.TestOrAdd on a key. -/
def TestOrAdd (hash : List Nat → HashTup) (f : BloomFilter)
    (key : List Nat) : Bool × BloomFilter :=
  f.TestOrAddHash (hash key)

/-- The mutating operations a caller can interleave after an Add (claim C1):
further adds, test-and-adds, test-or-adds and merges. -/
inductive Op where
  | add (key : List Nat)
  | testAndAdd (key : List Nat)
  | testOrAdd (key : List Nat)
  | merge (g : BloomFilter)

/-- Applying one interleaved operation to the filter state. -/
def applyOp (hash : List Nat → HashTup) (f : BloomFilter) : Op → BloomFilter
  | .add key => Add hash f key
  | .testAndAdd key => (TestAndAdd hash f key).2
  | .testOrAdd key => (TestOrAdd hash f key).2
  | .merge g => (f.Merge g).2

/-- The filter-level data-model invariant: the bitset spans exactly m bits
and carries the matching word count. -/
def WF (f : BloomFilter) : Prop :=
  f.b.size = f.m ∧ WFbs f.b

instance (f : BloomFilter) : Decidable (WF f) := by
  unfold WF; infer_instance

/-! ## Lemmas about Set and Test -/

theorem size_Set (bs : atomicBitSet) (l : Nat) : (bs.Set l).size = bs.size := by
  unfold atomicBitSet.Set
  split <;> rfl

theorem length_Set (bs : atomicBitSet) (l : Nat) :
    (bs.Set l).data.length = bs.data.length := by
  unfold atomicBitSet.Set
  split <;> simp

theorem WFbs_Set (bs : atomicBitSet) (l : Nat) (h : WFbs bs) :
    WFbs (bs.Set l) := by
  unfold WFbs at h ⊢
  rw [length_Set, size_Set]
  exact h

/-- Test read through testBit: the mask comparison of the source is the
testBit of the loaded word. -/
theorem Test_eq_testBit (bs : atomicBitSet) (i : Nat) :
    bs.Test i = (decide (i < bs.size) &&
      (bs.data.getD (i / 64) 0).testBit (i % 64)) := by
  unfold atomicBitSet.Test
  split_ifs with h
  · simp [show ¬ i < bs.size by omega]
  · simp only [word_mask_ne_zero]
    simp [show i < bs.size by omega]

/-- Monotonicity of one Set: a bit that tests set keeps testing set. -/
theorem Test_Set_mono (bs : atomicBitSet) (l j : Nat)
    (h : bs.Test j = true) : (bs.Set l).Test j = true := by
  rw [Test_eq_testBit] at h ⊢
  rw [size_Set]
  simp only [Bool.and_eq_true, decide_eq_true_eq] at h ⊢
  refine ⟨h.1, ?_⟩
  unfold atomicBitSet.Set
  split_ifs with hsz
  · exact h.2
  · simp only
    rcases eq_or_ne (l / 64) (j / 64) with heq | hne
    · rcases Nat.lt_or_ge (l / 64) bs.data.length with hlen | hlen
      · rw [← heq, getD_set_self _ _ _ hlen, heq]
        simp only [Nat.testBit_or, h.2, Bool.true_or]
      · rw [List.set_eq_of_length_le (by omega)]
        exact h.2
    · rw [getD_set_ne _ _ _ _ hne]
      exact h.2

/-- Setting an in-range bit of a well-formed bitset makes it test set. -/
theorem Test_Set_self (bs : atomicBitSet) (l : Nat) (hwf : WFbs bs)
    (hl : l < bs.size) : (bs.Set l).Test l = true := by
  have hidx : l / 64 < bs.data.length := by
    unfold WFbs at hwf
    omega
  rw [Test_eq_testBit, size_Set]
  simp only [Bool.and_eq_true, decide_eq_true_eq]
  refine ⟨hl, ?_⟩
  unfold atomicBitSet.Set
  split_ifs with hsz
  · omega
  · simp only
    rw [getD_set_self _ _ _ hidx]
    have hmask : (1 : Nat) <<< (l % 64) = 2 ^ (l % 64) := by
      simp [Nat.shiftLeft_eq]
    rw [hmask]
    simp only [Nat.testBit_or, Nat.testBit_two_pow_self, Bool.or_true]

/-- Setting a bit that already tests set leaves the bitset unchanged. -/
theorem Set_of_Test (bs : atomicBitSet) (l : Nat)
    (h : bs.Test l = true) : bs.Set l = bs := by
  rw [Test_eq_testBit] at h
  simp only [Bool.and_eq_true, decide_eq_true_eq] at h
  unfold atomicBitSet.Set
  split_ifs with hsz
  · rfl
  · simp only
    have hword : bs.data.getD (l / 64) 0 ||| 1 <<< (l % 64)
        = bs.data.getD (l / 64) 0 := by
      have hmask : (1 : Nat) <<< (l % 64) = 2 ^ (l % 64) := by
        simp [Nat.shiftLeft_eq]
      rw [hmask]
      apply Nat.eq_of_testBit_eq
      intro q
      rcases eq_or_ne (l % 64) q with rfl | hq
      · simp only [Nat.testBit_or, h.2, Nat.testBit_two_pow_self, Bool.or_self]
      · simp only [Nat.testBit_or, Nat.testBit_two_pow_of_ne hq, Bool.or_false]
    rw [hword, set_getD_self]

/-! ## Folded Set lemmas -/

/-- Setting a list of positions in order (the loop bodies of Add,
TestAndAdd and TestOrAdd all drive the bitset through this fold). -/
def setAll (bs : atomicBitSet) (locs : List Nat) : atomicBitSet :=
  locs.foldl atomicBitSet.Set bs

theorem size_setAll (bs : atomicBitSet) (locs : List Nat) :
    (setAll bs locs).size = bs.size := by
  induction locs generalizing bs with
  | nil => rfl
  | cons a t ih => rw [setAll, List.foldl_cons, ← setAll, ih, size_Set]

theorem WFbs_setAll (bs : atomicBitSet) (locs : List Nat) (h : WFbs bs) :
    WFbs (setAll bs locs) := by
  induction locs generalizing bs with
  | nil => exact h
  | cons a t ih => rw [setAll, List.foldl_cons, ← setAll]; exact ih _ (WFbs_Set _ _ h)

theorem Test_setAll_mono (bs : atomicBitSet) (locs : List Nat) (j : Nat)
    (h : bs.Test j = true) : (setAll bs locs).Test j = true := by
  induction locs generalizing bs with
  | nil => exact h
  | cons a t ih =>
    rw [setAll, List.foldl_cons, ← setAll]
    exact ih _ (Test_Set_mono _ _ _ h)

theorem Test_setAll_mem (bs : atomicBitSet) (locs : List Nat) (l : Nat)
    (hwf : WFbs bs) (hmem : l ∈ locs) (hl : l < bs.size) :
    (setAll bs locs).Test l = true := by
  induction locs generalizing bs with
  | nil => simp at hmem
  | cons a t ih =>
    rw [setAll, List.foldl_cons, ← setAll]
    rcases List.mem_cons.mp hmem with rfl | hmem2
    · exact Test_setAll_mono _ _ _ (Test_Set_self _ _ hwf hl)
    · exact ih _ (WFbs_Set _ _ hwf) hmem2 (by rw [size_Set]; exact hl)

/-! ## InPlaceUnion lemmas -/

theorem length_orWords (d o : List Nat) : (orWords d o).length = d.length := by
  induction d generalizing o with
  | nil => rfl
  | cons w ws ih =>
    cases o with
    | nil => simpa [orWords] using ih []
    | cons v os => simpa [orWords] using ih os

theorem getD_orWords (d o : List Nat) (i : Nat) (h : i < d.length) :
    (orWords d o).getD i 0 = d.getD i 0 ||| o.getD i 0 := by
  induction d generalizing o i with
  | nil => simp at h
  | cons w ws ih =>
    cases o with
    | nil =>
      cases i with
      | zero => simp [orWords, List.getD]
      | succ j =>
        have := ih [] j (by simpa using h)
        simpa [orWords, List.getD] using this
    | cons v os =>
      cases i with
      | zero => simp [orWords, List.getD]
      | succ j =>
        have := ih os j (by simpa using h)
        simpa [orWords, List.getD] using this

/-- A bit set in the first bitset stays set in the in-place union. -/
theorem Test_union_left (bs other : atomicBitSet) (j : Nat)
    (h : bs.Test j = true) : (bs.InPlaceUnion other).Test j = true := by
  rw [Test_eq_testBit] at h ⊢
  simp only [Bool.and_eq_true, decide_eq_true_eq] at h ⊢
  refine ⟨h.1, ?_⟩
  have hlen : j / 64 < bs.data.length := by
    by_contra hge
    rw [getD_eq_zero_of_le _ _ (by omega)] at h
    simp [Nat.zero_testBit] at h
  show ((orWords bs.data other.data).getD (j / 64) 0).testBit (j % 64) = true
  rw [getD_orWords _ _ _ hlen]
  simp only [Nat.testBit_or, h.2, Bool.true_or]

/-- A bit set in the second bitset is set in the in-place union, provided
the first has at least as many words and at least as large a size. -/
theorem Test_union_right (bs other : atomicBitSet) (j : Nat)
    (hsz : other.size ≤ bs.size) (hlen : other.data.length ≤ bs.data.length)
    (h : other.Test j = true) : (bs.InPlaceUnion other).Test j = true := by
  rw [Test_eq_testBit] at h ⊢
  simp only [Bool.and_eq_true, decide_eq_true_eq] at h ⊢
  refine ⟨show j < bs.size by omega, ?_⟩
  have hl : j / 64 < other.data.length := by
    by_contra hge
    rw [getD_eq_zero_of_le _ _ (by omega)] at h
    simp [Nat.zero_testBit] at h
  show ((orWords bs.data other.data).getD (j / 64) 0).testBit (j % 64) = true
  rw [getD_orWords _ _ _ (by omega)]
  simp only [Nat.testBit_or, h.2, Bool.or_true]

/-! ## The TestAndAdd and TestOrAdd loops -/

/-- The k probe positions of a filter for one hash tuple, in loop order. -/
def locsList (f : BloomFilter) (h : HashTup) : List Nat :=
  (List.range f.k).map (f.location h)

theorem taaLoop_snd (locs : List Nat) (p : Bool) (bs : atomicBitSet) :
    (locs.foldl taaStep (p, bs)).2 = setAll bs locs := by
  induction locs generalizing p bs with
  | nil => rfl
  | cons l t ih =>
    rw [List.foldl_cons, setAll, List.foldl_cons, ← setAll]
    exact ih _ _

theorem taaLoop_fst (locs : List Nat) (p : Bool) (bs : atomicBitSet) :
    (locs.foldl taaStep (p, bs)).1 = (p && locs.all (fun l => bs.Test l)) := by
  induction locs generalizing p bs with
  | nil => simp
  | cons l t ih =>
    rw [List.foldl_cons]
    cases htest : bs.Test l with
    | true =>
      have hbs : bs.Set l = bs := Set_of_Test _ _ htest
      rw [show taaStep (p, bs) l = (p, bs) by simp [taaStep, htest, hbs], ih]
      simp [htest]
    | false =>
      rw [show taaStep (p, bs) l = (false, bs.Set l) by simp [taaStep, htest], ih]
      simp [htest]

theorem toaLoop_eq_taaLoop (locs : List Nat) (p : Bool) (bs : atomicBitSet) :
    locs.foldl toaStep (p, bs) = locs.foldl taaStep (p, bs) := by
  induction locs generalizing p bs with
  | nil => rfl
  | cons l t ih =>
    rw [List.foldl_cons, List.foldl_cons]
    cases htest : bs.Test l with
    | true =>
      have hbs : bs.Set l = bs := Set_of_Test _ _ htest
      rw [show toaStep (p, bs) l = (p, bs) by simp [toaStep, htest],
        show taaStep (p, bs) l = (p, bs) by simp [taaStep, htest, hbs]]
      exact ih _ _
    | false =>
      rw [show toaStep (p, bs) l = (false, bs.Set l) by simp [toaStep, htest],
        show taaStep (p, bs) l = (false, bs.Set l) by simp [taaStep, htest]]
      exact ih _ _

/-! ## Filter-level reformulations -/

theorem AddHash_eq (f : BloomFilter) (h : HashTup) :
    f.AddHash h = { f with b := setAll f.b (locsList f h) } := by
  unfold BloomFilter.AddHash locsList setAll
  rw [List.foldl_map]

theorem TestHash_eq (f : BloomFilter) (h : HashTup) :
    f.TestHash h = (locsList f h).all (fun l => f.b.Test l) := by
  unfold BloomFilter.TestHash locsList
  rw [List.all_map]
  rfl

theorem TestAndAddHash_eq (f : BloomFilter) (h : HashTup) :
    f.TestAndAddHash h =
      ((locsList f h).all (fun l => f.b.Test l),
        { f with b := setAll f.b (locsList f h) }) := by
  unfold BloomFilter.TestAndAddHash
  have hfold : (List.range f.k).foldl (fun acc i => taaStep acc (f.location h i))
      (true, f.b) = (locsList f h).foldl taaStep (true, f.b) := by
    unfold locsList
    rw [List.foldl_map]
  rw [hfold]
  simp only [taaLoop_fst, taaLoop_snd, Bool.true_and]

theorem TestOrAddHash_eq_TestAndAddHash (f : BloomFilter) (h : HashTup) :
    f.TestOrAddHash h = f.TestAndAddHash h := by
  unfold BloomFilter.TestOrAddHash BloomFilter.TestAndAddHash
  have h1 : (List.range f.k).foldl (fun acc i => toaStep acc (f.location h i))
      (true, f.b) = (locsList f h).foldl toaStep (true, f.b) := by
    unfold locsList; rw [List.foldl_map]
  have h2 : (List.range f.k).foldl (fun acc i => taaStep acc (f.location h i))
      (true, f.b) = (locsList f h).foldl taaStep (true, f.b) := by
    unfold locsList; rw [List.foldl_map]
  rw [h1, h2, toaLoop_eq_taaLoop]

/-- Every probe position is below m, hence below the bitset size of a
well-formed filter. -/
theorem locsList_lt (f : BloomFilter) (h : HashTup) (hm : 0 < f.m) (l : Nat)
    (hmem : l ∈ locsList f h) : l < f.m := by
  unfold locsList at hmem
  rcases List.mem_map.mp hmem with ⟨i, _, rfl⟩
  exact Nat.mod_lt _ hm

/-! ## Monotonicity machinery for claim C1 -/

theorem applyOp_preserves (hash : List Nat → HashTup) (f : BloomFilter)
    (op : Op) :
    (applyOp hash f op).m = f.m ∧ (applyOp hash f op).k = f.k ∧
      ∀ j, f.b.Test j = true → (applyOp hash f op).b.Test j = true := by
  cases op with
  | add key =>
    simp only [applyOp]
    rw [Add, AddHash_eq]
    exact ⟨rfl, rfl, fun j hj => Test_setAll_mono _ _ _ hj⟩
  | testAndAdd key =>
    simp only [applyOp]
    rw [TestAndAdd, TestAndAddHash_eq]
    exact ⟨rfl, rfl, fun j hj => Test_setAll_mono _ _ _ hj⟩
  | testOrAdd key =>
    simp only [applyOp]
    rw [TestOrAdd, TestOrAddHash_eq_TestAndAddHash, TestAndAddHash_eq]
    exact ⟨rfl, rfl, fun j hj => Test_setAll_mono _ _ _ hj⟩
  | merge g =>
    simp only [applyOp]
    unfold BloomFilter.Merge
    split_ifs with h1 h2
    · exact ⟨rfl, rfl, fun _ hj => hj⟩
    · exact ⟨rfl, rfl, fun _ hj => hj⟩
    · exact ⟨rfl, rfl, fun j hj => Test_union_left _ _ _ hj⟩

theorem foldl_applyOp_preserves (hash : List Nat → HashTup) (ops : List Op)
    (f : BloomFilter) :
    (ops.foldl (applyOp hash) f).m = f.m ∧
      (ops.foldl (applyOp hash) f).k = f.k ∧
      ∀ j, f.b.Test j = true → (ops.foldl (applyOp hash) f).b.Test j = true := by
  induction ops generalizing f with
  | nil => exact ⟨rfl, rfl, fun _ hj => hj⟩
  | cons op t ih =>
    rw [List.foldl_cons]
    obtain ⟨h1, h2, h3⟩ := applyOp_preserves hash f op
    obtain ⟨g1, g2, g3⟩ := ih (applyOp hash f op)
    exact ⟨g1.trans h1, g2.trans h2, fun j hj => g3 j (h3 j hj)⟩

/-- A filter with the same parameters and at least the same set bits passes
every test the original passed. -/
theorem TestHash_mono (f g : BloomFilter) (hm : g.m = f.m) (hk : g.k = f.k)
    (hb : ∀ j, f.b.Test j = true → g.b.Test j = true) (h : HashTup)
    (ht : f.TestHash h = true) : g.TestHash h = true := by
  rw [TestHash_eq] at ht ⊢
  rw [List.all_eq_true] at ht ⊢
  intro l hl
  apply hb
  apply ht
  have hloc : locsList g h = locsList f h := by
    unfold locsList BloomFilter.location
    rw [hm, hk]
  rwa [hloc] at hl

/-- Adding a key makes it test positive (well-formed filter, positive m). -/
theorem Test_Add_self (hash : List Nat → HashTup) (f : BloomFilter)
    (key : List Nat) (hwf : WF f) (hm : 0 < f.m) :
    Test hash (Add hash f key) key = true := by
  unfold Test Add
  rw [AddHash_eq]
  have hlocs : locsList { f with b := setAll f.b (locsList f (hash key)) }
      (hash key) = locsList f (hash key) := rfl
  rw [TestHash_eq, hlocs, List.all_eq_true]
  intro l hl
  exact Test_setAll_mem _ _ _ hwf.2 hl (by rw [hwf.1]; exact locsList_lt f _ hm l hl)

/-- C1: after Add(x), Test(x) is true and remains true after any sequence
of Add, TestAndAdd, TestOrAdd or Merge operations: every bit, once set,
stays set (only ClearAll clears). -/
theorem add_then_test_monotone (hash : List Nat → HashTup) (f : BloomFilter)
    (hwf : WF f) (hm : 0 < f.m) (key : List Nat) (ops : List Op) :
    Test hash (ops.foldl (applyOp hash) (Add hash f key)) key = true := by
  obtain ⟨h1, h2, h3⟩ := foldl_applyOp_preserves hash ops (Add hash f key)
  have hinit : Test hash (Add hash f key) key = true :=
    Test_Add_self hash f key hwf hm
  unfold Test at hinit ⊢
  exact TestHash_mono _ _ h1 h2 h3 _ hinit

/-- C2, the formula as the spec writes it: location(h, i) =
h[i % 2] + i * h[2 + (((i + (i % 2)) % 4) / 2)] in 64-bit unsigned
arithmetic. -/
def specLocation (h : HashTup) (i : Nat) : Nat :=
  (h ⟨i % 2, by omega⟩ + i * h ⟨2 + ((i + i % 2) % 4) / 2, by omega⟩) % 2 ^ 64

/-- C2: the raw probe of the source equals the spec formula, and the bit
index a filter with m bits uses is that raw value modulo m. -/
theorem location_matches_spec (h : HashTup) (i : Nat) (f : BloomFilter) :
    location h i = specLocation h i ∧
      f.location h i = specLocation h i % f.m :=
  ⟨rfl, rfl⟩

/-- C6: sequentially, TestAndAdd returns exactly what Test would have
returned immediately before, and afterwards all k derived positions are set
regardless of prior state, so Test is true afterwards. -/
theorem testAndAdd_spec (hash : List Nat → HashTup) (f : BloomFilter)
    (key : List Nat) (hwf : WF f) (hm : 0 < f.m) :
    (TestAndAdd hash f key).1 = Test hash f key ∧
      (∀ i < f.k,
        (TestAndAdd hash f key).2.b.Test (f.location (hash key) i) = true) ∧
      Test hash (TestAndAdd hash f key).2 key = true := by
  unfold TestAndAdd Test
  rw [TestAndAddHash_eq, TestHash_eq]
  refine ⟨rfl, ?_, ?_⟩
  · intro i hi
    show (setAll f.b (locsList f (hash key))).Test (f.location (hash key) i)
      = true
    have hmem : f.location (hash key) i ∈ locsList f (hash key) :=
      List.mem_map.mpr ⟨i, List.mem_range.mpr hi, rfl⟩
    exact Test_setAll_mem _ _ _ hwf.2 hmem
      (by rw [hwf.1]; exact locsList_lt f _ hm _ hmem)
  · have hlocs : locsList { f with b := setAll f.b (locsList f (hash key)) }
        (hash key) = locsList f (hash key) := rfl
    show BloomFilter.TestHash _ (hash key) = true
    rw [TestHash_eq, hlocs, List.all_eq_true]
    intro l hl
    exact Test_setAll_mem _ _ _ hwf.2 hl
      (by rw [hwf.1]; exact locsList_lt f _ hm l hl)

/-- C10: sequentially, TestOrAdd and TestAndAdd agree: same returned
boolean and same final filter state, for every filter, key and hash. -/
theorem testOrAdd_eq_testAndAdd (hash : List Nat → HashTup) (f : BloomFilter)
    (key : List Nat) : TestOrAdd hash f key = TestAndAdd hash f key := by
  unfold TestOrAdd TestAndAdd
  exact TestOrAddHash_eq_TestAndAddHash f (hash key)

/-- C3: Merge returns a descriptive error and leaves the filter unmodified
when m or k differ; when both match it returns no error and ORs the other
bit array in, so every key testing true in either filter tests true in the
merged one. -/
theorem merge_spec (f g : BloomFilter) (hwf : WF f) (hwg : WF g) :
    (f.m ≠ g.m ∨ f.k ≠ g.k →
      (f.Merge g).1.isSome = true ∧ (f.Merge g).2 = f) ∧
    (f.m = g.m → f.k = g.k → (f.Merge g).1 = none ∧
      ∀ (hash : List Nat → HashTup) (key : List Nat),
        (Test hash f key || Test hash g key) = true →
        Test hash (f.Merge g).2 key = true) := by
  constructor
  · intro hne
    unfold BloomFilter.Merge
    split_ifs with h1 h2
    · exact ⟨rfl, rfl⟩
    · exact ⟨rfl, rfl⟩
    · tauto
  · intro hme hke
    unfold BloomFilter.Merge
    split_ifs with h1 h2
    · exact absurd hme h1
    · exact absurd hke h2
    · refine ⟨rfl, ?_⟩
      intro hash key hor
      unfold Test at hor ⊢
      rw [Bool.or_eq_true] at hor
      show ({ f with b := f.b.InPlaceUnion g.b } : BloomFilter).TestHash
        (hash key) = true
      rcases hor with hl | hr
      · exact TestHash_mono f { f with b := f.b.InPlaceUnion g.b } rfl rfl
          (fun j hj => Test_union_left _ _ _ hj) _ hl
      · refine TestHash_mono g { f with b := f.b.InPlaceUnion g.b } hme hke
          (fun j hj => ?_) _ hr
        apply Test_union_right
        · rw [hwf.1, hwg.1]
          omega
        · rw [hwf.2, hwg.2, hwf.1, hwg.1, hme]
        · exact hj

/-! ## Serialization round-trip lemmas -/

theorem readU64_be64 (x : Nat) (r : List Nat) (h : x < U64) :
    readU64 (be64 x ++ r) = some (x, r) := by
  have h2 : x < 18446744073709551616 := by
    have hu : U64 = 18446744073709551616 := by norm_num [U64]
    omega
  simp only [be64, toBytesBE, List.nil_append, List.cons_append,
    List.append_assoc]
  simp only [readU64]
  refine congrArg some (Prod.ext ?_ rfl)
  omega

theorem readWords_flatten (ws : List Nat) (r : List Nat)
    (hw : ∀ w ∈ ws, w < U64) :
    readWords ws.length ((ws.map be64).flatten ++ r) = some (ws, r) := by
  induction ws generalizing r with
  | nil => simp [readWords]
  | cons w t ih =>
    simp only [List.map_cons, List.flatten_cons, List.length_cons,
      List.append_assoc]
    rw [readWords]
    rw [readU64_be64 _ _ (hw w (by simp))]
    simp only [Option.bind_eq_bind, Option.some_bind]
    rw [ih _ (fun v hv => hw v (by simp [hv]))]
    rfl

/-- All fields of a bitset fit in 64 bits, as the Go types force. -/
def BoundsBS (bs : atomicBitSet) : Prop :=
  bs.size < U64 ∧ bs.data.length < U64 ∧ ∀ w ∈ bs.data, w < U64

instance (bs : atomicBitSet) : Decidable (BoundsBS bs) := by
  unfold BoundsBS; infer_instance

theorem bs_roundtrip (bs : atomicBitSet) (r : List Nat) (h : BoundsBS bs) :
    atomicBitSet.ReadFrom (bs.WriteTo ++ r) = some (bs, r) := by
  obtain ⟨h1, h2, h3⟩ := h
  unfold atomicBitSet.WriteTo atomicBitSet.ReadFrom
  rw [List.append_assoc, List.append_assoc]
  rw [readU64_be64 _ _ h1]
  simp only [Option.bind_eq_bind, Option.some_bind]
  rw [readU64_be64 _ _ h2]
  simp only [Option.bind_eq_bind, Option.some_bind]
  rw [readWords_flatten _ _ h3]
  rfl

/-- All fields of a filter fit in 64 bits, as the Go types force. -/
def BoundsF (f : BloomFilter) : Prop :=
  f.m < U64 ∧ f.k < U64 ∧ BoundsBS f.b

instance (f : BloomFilter) : Decidable (BoundsF f) := by
  unfold BoundsF; infer_instance

theorem filter_roundtrip (f : BloomFilter) (r : List Nat) (h : BoundsF f) :
    BloomFilter.ReadFrom (f.WriteTo ++ r) = some (f, r) := by
  obtain ⟨h1, h2, h3⟩ := h
  unfold BloomFilter.WriteTo BloomFilter.ReadFrom
  rw [List.append_assoc, List.append_assoc]
  rw [readU64_be64 _ _ h1]
  simp only [Option.bind_eq_bind, Option.some_bind]
  rw [readU64_be64 _ _ h2]
  simp only [Option.bind_eq_bind, Option.some_bind]
  rw [bs_roundtrip _ _ h3]
  rfl

/-- C4: decoding the bytes produced by encoding a filter (WriteTo then
ReadFrom of the binary form) consumes the whole stream and yields a filter
equal to the original under Equal (same m, same k, identical words). -/
theorem serialize_roundtrip (f : BloomFilter) (h : BoundsF f) :
    ∃ g, BloomFilter.ReadFrom f.WriteTo = some (g, []) ∧ f.Equal g = true := by
  refine ⟨f, ?_, ?_⟩
  · have := filter_roundtrip f [] h
    simpa using this
  · simp [BloomFilter.Equal, atomicBitSet.Equal]

/-- Witness for C4 at the degenerate filter New 1 1: m = 1, k = 1 and no
bit set, as the claim singles out. -/
theorem serialize_roundtrip_witness :
    BoundsF (New 1 1) ∧
      ∃ g, BloomFilter.ReadFrom (New 1 1).WriteTo = some (g, []) ∧
        (New 1 1).Equal g = true :=
  ⟨by decide, serialize_roundtrip (New 1 1) (by decide)⟩

/-- C5 counterexample: a stream declaring size 128 but word count 1 (where
(128 + 63) / 64 = 2 words would be consistent) is accepted by ReadFrom with
no decode error, refuting the claim that inconsistent word counts are
rejected. -/
theorem readFrom_inconsistent_accepted :
    ((128 : Nat) + 63) / 64 ≠ 1 ∧
      BloomFilter.ReadFrom
          (be64 1 ++ be64 1 ++ be64 128 ++ be64 1 ++ be64 0) =
        some (⟨1, 1, ⟨[0], 128⟩⟩, []) := by
  constructor
  · decide
  · decide

/-- C5 as amended: ReadFrom performs no consistency check between the
declared bit-array size and the declared word count; any stream that
supplies the declared number of words is accepted as is (decode errors
arise only from truncated streams). -/
theorem readFrom_no_wordCount_check (m k size : Nat) (ws : List Nat)
    (r : List Nat) (hm : m < U64) (hk : k < U64) (hs : size < U64)
    (hl : ws.length < U64) (hw : ∀ w ∈ ws, w < U64) :
    BloomFilter.ReadFrom
        (be64 m ++ be64 k ++ be64 size ++ be64 ws.length ++
          (ws.map be64).flatten ++ r) =
      some (⟨m, k, ⟨ws, size⟩⟩, r) := by
  unfold BloomFilter.ReadFrom atomicBitSet.ReadFrom
  simp only [List.append_assoc]
  rw [readU64_be64 _ _ hm]
  simp only [Option.bind_eq_bind, Option.some_bind]
  rw [readU64_be64 _ _ hk]
  simp only [Option.bind_eq_bind, Option.some_bind]
  rw [readU64_be64 _ _ hs]
  simp only [Option.bind_eq_bind, Option.some_bind]
  rw [readU64_be64 _ _ hl]
  simp only [Option.bind_eq_bind, Option.some_bind]
  rw [readWords_flatten _ _ hw]
  rfl

/-- Witness for the amended C5: a concrete inconsistent stream (size 100
would need 2 words, 1 is declared and supplied) decodes successfully. -/
theorem readFrom_no_wordCount_check_witness :
    BloomFilter.ReadFrom
        (be64 2 ++ be64 3 ++ be64 100 ++ be64 [(5 : Nat)].length ++
          ([(5 : Nat)].map be64).flatten ++ []) =
      some (⟨2, 3, ⟨[5], 100⟩⟩, []) :=
  readFrom_no_wordCount_check 2 3 100 [5] [] (by decide) (by decide)
    (by decide) (by decide) (by decide)

/-! ## Constructors and degenerate parameters (claim C7) -/

theorem gmax_one_pos (m : Nat) : 1 ≤ gmax 1 m := by
  unfold gmax
  split_ifs <;> omega

/-- C7 counterexample: FromWithM does not clamp m, so passing m = 0 yields
a filter whose Cap() is 0, refuting the claim that every constructor clamps
m to at least 1. -/
theorem fromWithM_cap_zero : (FromWithM [] 0 1).Cap = 0 := by decide

/-- C7 as amended: New and NewWithEstimates clamp both m and k to at least
1; From and FromWithM clamp only k (so K() is always at least 1 and no
constructor ever rejects its input), but they keep m as supplied, so a
filter with Cap() = 0 is constructible. -/
theorem constructors_clamp (m k n : Nat) (est : Nat → ℚ → Nat × Nat) (p : ℚ)
    (data : List Nat) :
    1 ≤ (New m k).Cap ∧ 1 ≤ (New m k).K ∧
      1 ≤ (NewWithEstimates est n p).Cap ∧
      1 ≤ (NewWithEstimates est n p).K ∧
      1 ≤ (FromWithM data m k).K ∧ (FromWithM data m k).Cap = m ∧
      1 ≤ (From data k).K ∧ (From data k).Cap = 64 * data.length :=
  ⟨gmax_one_pos m, gmax_one_pos k, gmax_one_pos _, gmax_one_pos _,
    gmax_one_pos k, rfl, gmax_one_pos k, rfl⟩

/-- C8: for a bitset satisfying the data-model invariant, Set and Test at
an out-of-range index are a silent no-op and false respectively, and for an
in-range index the word access at i / 64 is within the word array, so no
access ever panics. -/
theorem set_test_safe (bs : atomicBitSet) (hwf : WFbs bs) (i : Nat) :
    (bs.size ≤ i → bs.Set i = bs ∧ bs.Test i = false) ∧
      (i < bs.size → i / 64 < bs.data.length) := by
  constructor
  · intro h
    constructor
    · unfold atomicBitSet.Set
      simp [h]
    · unfold atomicBitSet.Test
      simp [h]
  · intro h
    unfold WFbs at hwf
    omega

/-- Witness for C8 on a 70-bit bitset: index 100 is a no-op and tests
false; index 65 accesses word 1, inside the 2-word array. -/
theorem set_test_safe_witness :
    WFbs (newAtomicBitSet 70) ∧
      ((newAtomicBitSet 70).Set 100 = newAtomicBitSet 70 ∧
        (newAtomicBitSet 70).Test 100 = false) ∧
      (65 : Nat) / 64 < (newAtomicBitSet 70).data.length :=
  ⟨by decide,
    (set_test_safe (newAtomicBitSet 70) (by decide) 100).1 (by decide),
    (set_test_safe (newAtomicBitSet 70) (by decide) 65).2 (by decide)⟩

/-- C9: ApproximatedSize returns 0 when m or k is 0; returns the truncated
m / k when the set-bit count x equals m with m, k positive; and otherwise
returns the truncated -(m / k) * log (1 - x / m) with the argument of the
logarithm never zero. -/
theorem approximatedSize_spec (log : ℚ → ℚ) (f : BloomFilter) :
    ((f.Cap = 0 ∨ f.K = 0) → f.ApproximatedSize log = 0) ∧
      (f.b.Count = f.Cap → 0 < f.Cap → 0 < f.K →
        f.ApproximatedSize log = ratTrunc ((f.Cap : ℚ) / (f.K : ℚ))) ∧
      (f.Cap ≠ 0 → f.K ≠ 0 → f.b.Count ≠ f.Cap →
        f.ApproximatedSize log =
            ratTrunc (-(f.Cap : ℚ) / (f.K : ℚ) *
              log (1 - (f.b.Count : ℚ) / (f.Cap : ℚ))) ∧
          (1 : ℚ) - (f.b.Count : ℚ) / (f.Cap : ℚ) ≠ 0) := by
  refine ⟨?_, ?_, ?_⟩
  · intro h
    unfold BloomFilter.ApproximatedSize
    rw [if_pos, if_neg]
    · rintro ⟨h1, h2, h3⟩
      rcases h with h | h
      · rw [h] at h2
        simp at h2
      · rw [h] at h3
        simp at h3
    · rcases h with h | h
      · exact Or.inl (by rw [h]; simp)
      · exact Or.inr (Or.inl (by rw [h]; simp))
  · intro h1 h2 h3
    unfold BloomFilter.ApproximatedSize
    rw [if_pos, if_pos]
    · exact ⟨by rw [h1], by exact_mod_cast h2, by exact_mod_cast h3⟩
    · exact Or.inr (Or.inr (by rw [h1]))
  · intro h1 h2 h3
    unfold BloomFilter.ApproximatedSize
    rw [if_neg]
    · refine ⟨rfl, ?_⟩
      intro hz
      have hx : ((f.b.Count : ℚ)) / ((f.Cap : ℚ)) = 1 := by linarith
      have hc : ((f.Cap : ℚ)) ≠ 0 := by exact_mod_cast h1
      rw [div_eq_one_iff_eq hc] at hx
      exact h3 (by exact_mod_cast hx)
    · rintro (hc | hc | hc)
      · exact h1 (by exact_mod_cast hc)
      · exact h2 (by exact_mod_cast hc)
      · exact h3 (by exact_mod_cast hc.symm)

/-! ## Concrete instances for the witnesses -/

/-- A tiny concrete stand-in for the external baseHashes collaborator,
used only to instantiate the hash-parametric theorems at concrete inputs. -/
def hash0 : List Nat → HashTup := fun key j => key.getD j.val 0

/-- Witness for C1: on a well-formed 64-bit, 2-probe filter, the key added
first still tests true after a further add, a mismatched merge, a matched
merge, a TestOrAdd and a TestAndAdd. -/
theorem add_then_test_monotone_witness :
    WF (New 64 2) ∧ 0 < (New 64 2).m ∧
      Test hash0
        ([Op.add [9], Op.merge (New 32 2), Op.merge (New 64 2),
            Op.testOrAdd [3], Op.testAndAdd [4]].foldl (applyOp hash0)
          (Add hash0 (New 64 2) [5, 6])) [5, 6] = true :=
  ⟨by decide, by decide,
    add_then_test_monotone hash0 (New 64 2) (by decide) (by decide) [5, 6]
      [Op.add [9], Op.merge (New 32 2), Op.merge (New 64 2),
        Op.testOrAdd [3], Op.testAndAdd [4]]⟩

/-- Witness for C3: a mismatched merge errors and leaves the filter intact;
a matched merge of two one-key filters errors not and tests true for a key
of the second operand. -/
theorem merge_spec_witness :
    ((New 64 2).Merge (New 32 2)).1.isSome = true ∧
      ((New 64 2).Merge (New 32 2)).2 = New 64 2 ∧
      ((Add hash0 (New 64 2) [1]).Merge (Add hash0 (New 64 2) [2])).1
        = none ∧
      Test hash0
        ((Add hash0 (New 64 2) [1]).Merge (Add hash0 (New 64 2) [2])).2 [2]
        = true := by
  have hA := merge_spec (New 64 2) (New 32 2) (by decide) (by decide)
  have hB := merge_spec (Add hash0 (New 64 2) [1])
    (Add hash0 (New 64 2) [2]) (by decide) (by decide)
  exact ⟨(hA.1 (by decide)).1, (hA.1 (by decide)).2, (hB.2 rfl rfl).1,
    (hB.2 rfl rfl).2 hash0 [2] (by decide)⟩

/-- Witness for C6 on an 8-bit, 2-probe filter and the key [7]. -/
theorem testAndAdd_spec_witness :
    (TestAndAdd hash0 (New 8 2) [7]).1 = Test hash0 (New 8 2) [7] ∧
      (∀ i < (New 8 2).k,
        (TestAndAdd hash0 (New 8 2) [7]).2.b.Test
          ((New 8 2).location (hash0 [7]) i) = true) ∧
      Test hash0 (TestAndAdd hash0 (New 8 2) [7]).2 [7] = true :=
  testAndAdd_spec hash0 (New 8 2) [7] (by decide) (by decide)
